import Mathlib

/-!
Shallow embedding of the versioned JSON storage engine (`JSONDatabase` in
`jsonstorage/ws.py`).

The sqlite table `storage (name text, effdt datetime, status text, content text)`
is modelled as a `List Record`.  Timestamps are stored by the code as ISO-8601
strings at second precision (`datetime_todb` uses `isoformat(sep=" ",
timespec="seconds")`, which truncates); string comparison of such fixed-width
ISO strings coincides with chronological order, so the stored `effdt` column is
modelled as a `Nat` (seconds).  An in-memory `datetime` value carries
sub-second precision, modelled by `Timestamp` with a separate `subsec` field
that `datetime_todb` discards.  JSON payloads are kept in their serialized
form (`json.dumps`), i.e. as `String`; `content = none` in `put_item` is the
soft-delete path.  The unique index `idx_storage on storage (name, effdt)`
makes the insert in `put_item` fail when the key is already present, which the
model surfaces as `Except.error ()`.
-/

namespace JsonStorage

/-- One row of the `storage` table: `name`, `effdt` (seconds), `status`
(`"A"` or `"I"` as written by `put_item`), `content` (serialized JSON,
empty when inactive). -/
structure Record where
  name : String
  effdt : Nat
  status : String
  content : String
deriving DecidableEq, Repr

/-- An in-memory `datetime.datetime`: whole seconds plus a sub-second part
(microseconds in Python); only the whole seconds survive `datetime_todb`. -/
structure Timestamp where
  sec : Nat
  subsec : Nat
deriving DecidableEq, Repr

/-- `JSONDatabase.datetime_todb`: `d.isoformat(sep=" ", timespec="seconds")`
truncates to whole seconds (no rounding). -/
def datetime_todb (t : Timestamp) : Nat := t.sec

/-- The row filter of `sql_get_item`:
`s.name = :p and effdt <= :d and not exists (select 1 from storage where
name = s.name and effdt > s.effdt and effdt <= :d) and s.status = 'A'`. -/
def getPred (db : List Record) (p : String) (d : Nat) (s : Record) : Bool :=
  s.name == p && decide (s.effdt ≤ d) &&
    !(db.any fun r => r.name == s.name && decide (s.effdt < r.effdt) && decide (r.effdt ≤ d)) &&
    s.status == "A"

/-- `sql_get_item` followed by `cur.fetchone()`: the first matching row's
content, or `none` when no row matches. -/
def sql_get_item (db : List Record) (p : String) (d : Nat) : Option String :=
  (db.filter (getPred db p d)).head?.map Record.content

/-- `JSONDatabase.get_item`: converts the timestamp with `datetime_todb` and
runs `sql_get_item`; `None` (here `none`) means not found. -/
def get_item (db : List Record) (p : String) (t : Timestamp) : Option String :=
  sql_get_item db p (datetime_todb t)

/-- Does the table already hold a row with key `(p, d)`?  This is what the
unique index `idx_storage` checks on insert. -/
def hasKey (db : List Record) (p : String) (d : Nat) : Bool :=
  db.any fun r => r.name == p && r.effdt == d

/-- The row inserted by `put_item`: status `'I'` with empty content for a
soft delete (`content is None`), status `'A'` with the serialized payload
otherwise. -/
def putRecord (content : Option String) (p : String) (d : Nat) : Record :=
  match content with
  | none => ⟨p, d, "I", ""⟩
  | some c => ⟨p, d, "A", c⟩

/-- `JSONDatabase.put_item` at the level of the stored column value `d`:
a single `insert into storage values(:p, :d, :s, :c)`; the unique index
rejects a duplicate `(name, effdt)` key, surfaced as a write-conflict
error, and the transaction then rolls back leaving the table unchanged. -/
def sql_put_item (db : List Record) (content : Option String) (p : String) (d : Nat) :
    Except Unit (List Record) :=
  if hasKey db p d then Except.error ()
  else Except.ok (db ++ [putRecord content p d])

/-- `JSONDatabase.put_item`: converts the timestamp with `datetime_todb`
and inserts. -/
def put_item (db : List Record) (content : Option String) (p : String) (t : Timestamp) :
    Except Unit (List Record) :=
  sql_put_item db content p (datetime_todb t)

/-- The resulting table state of a `put_item` call: unchanged when the
insert hits the unique-index conflict (the transaction rolls back). -/
def execPut (db : List Record) (content : Option String) (p : String) (t : Timestamp) :
    List Record :=
  match put_item db content p t with
  | Except.ok db2 => db2
  | Except.error _ => db

/-- The `old_stuff` CTE of `cleanup`: rows with
`s.effdt < datetime('now', '-1 years')` (here: `s.effdt < h` for the horizon
`h`, i.e. now minus one year) that are inactive or superseded
(`s.status = 'I' or exists (select 1 from storage where name = s.name and
effdt > s.effdt)`). -/
def oldStuff (db : List Record) (h : Nat) (s : Record) : Bool :=
  decide (s.effdt < h) &&
    (s.status == "I" || db.any fun r => r.name == s.name && decide (s.effdt < r.effdt))

/-- `JSONDatabase.cleanup`: `delete from storage where exists (select 1 from
old_stuff where name = storage.name and effdt = storage.effdt)`.  `h` is the
retention horizon `datetime('now', '-1 years')`. -/
def cleanup (db : List Record) (h : Nat) : List Record :=
  db.filter fun x =>
    !(db.any fun s => oldStuff db h s && s.name == x.name && s.effdt == x.effdt)

/-- The row filter of `get_list`: same shape as `sql_get_item` without the
name equality, plus the optional `like`/`glob` criteria on `s.name`
(modelled by the abstract name predicate `filt`). -/
def listPred (db : List Record) (d : Nat) (s : Record) : Bool :=
  decide (s.effdt ≤ d) &&
    !(db.any fun r => r.name == s.name && decide (s.effdt < r.effdt) && decide (r.effdt ≤ d)) &&
    s.status == "A"

/-- `JSONDatabase.get_list`: names of the currently active rows as of `d`,
`order by s.name`. -/
def get_list (db : List Record) (filt : String → Bool) (d : Nat) : List String :=
  ((db.filter fun s => listPred db d s && filt s.name).map Record.name).mergeSort
    (fun a b => decide (a ≤ b))

/-- Comparison realising `order by s.name, s.effdt` on the projected
`(name, effdt, status)` rows. -/
def histLe (a b : String × Nat × String) : Bool :=
  decide (a.1 < b.1) || (a.1 == b.1 && decide (a.2.1 ≤ b.2.1))

/-- `JSONDatabase.get_list_hist`: every row (optionally name-filtered),
projected to `(name, effdt, status)`, `order by s.name, s.effdt`. -/
def get_list_hist (db : List Record) (filt : String → Bool) :
    List (String × Nat × String) :=
  ((db.filter fun s => filt s.name).map fun s => (s.name, s.effdt, s.status)).mergeSort histLe

/-- The uniqueness invariant maintained by the unique index
`idx_storage on storage (name, effdt)`: no two rows share `(name, effdt)`. -/
def KeysUnique (db : List Record) : Prop :=
  db.Pairwise fun a b => a.name ≠ b.name ∨ a.effdt ≠ b.effdt

instance : DecidablePred KeysUnique := fun db =>
  List.instDecidablePairwise db

/-- The state-changing store operations (reads do not change the table). -/
inductive Op where
  | put : Option String → String → Timestamp → Op
  | cleanupOp : Nat → Op

/-- Effect of one operation on the table. -/
def execOp (db : List Record) : Op → List Record
  | Op.put c p t => execPut db c p t
  | Op.cleanupOp h => cleanup db h

/-- Table reached from the fresh empty database (`_db_init`) by a sequence
of operations, most recent first. -/
def execOps : List Op → List Record
  | [] => []
  | op :: l => execOp (execOps l) op

/-- Modelled from the spec: the point-in-time resolution rule of §4.1 — the
version of `p` whose `effective_at` is the greatest value `≤ d`, among all
versions of `p` regardless of status.  (Spec-side definition, to be compared
with the code-side `sql_get_item`.) -/
def latestAt : List Record → String → Nat → Option Record
  | [], _, _ => none
  | s :: rest, p, d =>
    if s.name = p ∧ s.effdt ≤ d then
      some ((latestAt rest p d).elim s (fun m => if m.effdt < s.effdt then s else m))
    else latestAt rest p d

/-- Modelled from the spec: what `get_item` should return given the resolved
most-recent version — its content when it is Active, absent otherwise. -/
def resolveContent : Option Record → Option String
  | none => none
  | some v => if v.status = "A" then some v.content else none

/-! ### Characterising the `sql_get_item` row filter -/

theorem getPred_iff {db : List Record} {p : String} {d : Nat} {s : Record} :
    getPred db p d s = true ↔
      s.name = p ∧ s.effdt ≤ d ∧
        (∀ x ∈ db, x.name = s.name → s.effdt < x.effdt → ¬ x.effdt ≤ d) ∧
        s.status = "A" := by
  simp only [getPred, Bool.and_eq_true, Bool.not_eq_true', beq_iff_eq,
    decide_eq_true_eq, List.any_eq_false, Bool.and_eq_false_iff,
    decide_eq_false_iff_not]
  constructor
  · rintro ⟨⟨⟨h1, h2⟩, h3⟩, h4⟩
    exact ⟨h1, h2, fun x hx hn hlt hle => h3 x hx ⟨⟨hn, hlt⟩, hle⟩, h4⟩
  · rintro ⟨h1, h2, h3, h4⟩
    exact ⟨⟨⟨h1, h2⟩, fun x hx h => h3 x hx h.1.1 h.1.2 h.2⟩, h4⟩

/-- Two rows of a table satisfying the uniqueness invariant that agree on
`(name, effdt)` are the same row. -/
theorem eq_of_key_eq {db : List Record} (hu : KeysUnique db) {a b : Record}
    (ha : a ∈ db) (hb : b ∈ db) (hn : a.name = b.name) (hd : a.effdt = b.effdt) :
    a = b := by
  by_cases hab : a = b
  · exact hab
  · have hsym : Symmetric fun x y : Record => x.name ≠ y.name ∨ x.effdt ≠ y.effdt :=
      fun x y hh => hh.imp Ne.symm Ne.symm
    rcases hu.forall hsym ha hb hab with hh | hh
    · exact absurd hn hh
    · exact absurd hd hh

/-- Under the uniqueness invariant, at most one row satisfies the
`sql_get_item` filter. -/
theorem getPred_unique {db : List Record} (hu : KeysUnique db) {p : String} {d : Nat}
    {r r2 : Record} (hr : r ∈ db) (hr2 : r2 ∈ db)
    (h1 : getPred db p d r = true) (h2 : getPred db p d r2 = true) : r = r2 := by
  rw [getPred_iff] at h1 h2
  obtain ⟨hn1, hd1, hm1, _⟩ := h1
  obtain ⟨hn2, hd2, hm2, _⟩ := h2
  have he1 : ¬ r.effdt < r2.effdt := fun hlt => hm1 r2 hr2 (hn2.trans hn1.symm) hlt hd2
  have he2 : ¬ r2.effdt < r.effdt := fun hlt => hm2 r hr (hn1.trans hn2.symm) hlt hd1
  have heq : r.effdt = r2.effdt := by omega
  by_contra hne
  have hsym : Symmetric fun a b : Record => a.name ≠ b.name ∨ a.effdt ≠ b.effdt :=
    fun a b h => h.imp Ne.symm Ne.symm
  rcases hu.forall hsym hr hr2 hne with h | h
  · exact h (hn1.trans hn2.symm)
  · exact h heq

theorem sql_get_item_eq_none_iff {db : List Record} {p : String} {d : Nat} :
    sql_get_item db p d = none ↔ ∀ r ∈ db, ¬ getPred db p d r = true := by
  simp [sql_get_item]

theorem sql_get_item_eq_some_iff {db : List Record} (hu : KeysUnique db) {p : String}
    {d : Nat} {c : String} :
    sql_get_item db p d = some c ↔
      ∃ r ∈ db, getPred db p d r = true ∧ r.content = c := by
  unfold sql_get_item
  constructor
  · intro h
    obtain ⟨r0, hr0, hc⟩ := Option.map_eq_some'.mp h
    have hmem : r0 ∈ db.filter (getPred db p d) :=
      List.mem_of_mem_head? (Option.mem_def.mpr hr0)
    exact ⟨r0, (List.mem_filter.mp hmem).1, (List.mem_filter.mp hmem).2, hc⟩
  · rintro ⟨r, hr, hpred, hc⟩
    have hmem : r ∈ db.filter (getPred db p d) := List.mem_filter.mpr ⟨hr, hpred⟩
    cases hl : db.filter (getPred db p d) with
    | nil => rw [hl] at hmem; cases hmem
    | cons a t =>
      have ha : a ∈ db.filter (getPred db p d) := hl ▸ List.mem_cons_self a t
      have har : a = r :=
        getPred_unique hu (List.mem_filter.mp ha).1 hr (List.mem_filter.mp ha).2 hpred
      simp [hl, har, hc]

/-! ### The spec-side resolution rule `latestAt` -/

theorem latestAt_eq_none_iff {db : List Record} {p : String} {d : Nat} :
    latestAt db p d = none ↔ ∀ r ∈ db, ¬(r.name = p ∧ r.effdt ≤ d) := by
  induction db with
  | nil => simp [latestAt]
  | cons s rest ih =>
    unfold latestAt
    by_cases hs : s.name = p ∧ s.effdt ≤ d
    · rw [if_pos hs]
      simp only [reduceCtorEq, false_iff, not_forall]
      exact ⟨s, List.mem_cons_self _ _, fun h => h hs⟩
    · rw [if_neg hs, ih]
      constructor
      · intro h r hr
        rcases List.mem_cons.mp hr with rfl | hr
        · exact hs
        · exact h r hr
      · intro h r hr
        exact h r (List.mem_cons_of_mem _ hr)

theorem latestAt_spec {p : String} {d : Nat} :
    ∀ {db : List Record} {v : Record}, latestAt db p d = some v →
      v ∈ db ∧ v.name = p ∧ v.effdt ≤ d ∧
        ∀ r ∈ db, r.name = p → r.effdt ≤ d → r.effdt ≤ v.effdt := by
  intro db
  induction db with
  | nil => intro v h; cases h
  | cons s rest ih =>
    intro v h
    unfold latestAt at h
    by_cases hs : s.name = p ∧ s.effdt ≤ d
    · rw [if_pos hs] at h
      cases hrest : latestAt rest p d with
      | none =>
        rw [hrest] at h
        simp only [Option.elim_none, Option.some.injEq] at h
        subst h
        refine ⟨List.mem_cons_self _ _, hs.1, hs.2, ?_⟩
        intro r hr hrn hrd
        rcases List.mem_cons.mp hr with rfl | hr
        · exact Nat.le_refl _
        · exact absurd ⟨hrn, hrd⟩ (latestAt_eq_none_iff.mp hrest r hr)
      | some m =>
        rw [hrest] at h
        simp only [Option.elim_some, Option.some.injEq] at h
        obtain ⟨hmmem, hmn, hmd, hmmax⟩ := ih hrest
        by_cases hlt : m.effdt < s.effdt
        · rw [if_pos hlt] at h
          subst h
          refine ⟨List.mem_cons_self _ _, hs.1, hs.2, ?_⟩
          intro r hr hrn hrd
          rcases List.mem_cons.mp hr with rfl | hr
          · exact Nat.le_refl _
          · exact Nat.le_trans (hmmax r hr hrn hrd) (Nat.le_of_lt hlt)
        · rw [if_neg hlt] at h
          subst h
          refine ⟨List.mem_cons_of_mem _ hmmem, hmn, hmd, ?_⟩
          intro r hr hrn hrd
          rcases List.mem_cons.mp hr with rfl | hr
          · exact Nat.le_of_not_lt hlt
          · exact hmmax r hr hrn hrd
    · rw [if_neg hs] at h
      obtain ⟨hmmem, hmn, hmd, hmmax⟩ := ih h
      refine ⟨List.mem_cons_of_mem _ hmmem, hmn, hmd, ?_⟩
      intro r hr hrn hrd
      rcases List.mem_cons.mp hr with rfl | hr
      · exact absurd ⟨hrn, hrd⟩ hs
      · exact hmmax r hr hrn hrd

/-! ### Claims -/

/-- Under the uniqueness invariant, `sql_get_item` computes exactly the
spec resolution rule: the content of the most recent version at or before
`d` when that version is Active, absent otherwise. -/
theorem sql_get_item_resolve {db : List Record} (hu : KeysUnique db)
    (p : String) (d : Nat) :
    sql_get_item db p d = resolveContent (latestAt db p d) := by
  cases hl : latestAt db p d with
  | none =>
    rw [resolveContent, sql_get_item_eq_none_iff]
    intro r hr hpred
    obtain ⟨hn, hd, _, _⟩ := getPred_iff.mp hpred
    exact latestAt_eq_none_iff.mp hl r hr ⟨hn, hd⟩
  | some v =>
    obtain ⟨hvmem, hvn, hvd, hvmax⟩ := latestAt_spec hl
    rw [resolveContent]
    by_cases hA : v.status = "A"
    · rw [if_pos hA, sql_get_item_eq_some_iff hu]
      refine ⟨v, hvmem, ?_, rfl⟩
      rw [getPred_iff]
      refine ⟨hvn, hvd, ?_, hA⟩
      intro x hx hxn hlt hxd
      exact absurd (hvmax x hx (hxn.trans hvn) hxd) (Nat.not_le_of_lt hlt)
    · rw [if_neg hA, sql_get_item_eq_none_iff]
      intro r hr hpred
      obtain ⟨hn, hd, hmax, hAr⟩ := getPred_iff.mp hpred
      have h1 : r.effdt ≤ v.effdt := hvmax r hr hn hd
      have h2 : ¬ r.effdt < v.effdt := fun hlt => hmax v hvmem (hvn.trans hn.symm) hlt hvd
      have heq : r.effdt = v.effdt := by omega
      have hrv : r = v := eq_of_key_eq hu hr hvmem (hn.trans hvn.symm) heq
      exact hA (hrv ▸ hAr)

/-! ### Claims -/

/-- C1: Point-in-time resolution.  For every store state satisfying the
uniqueness invariant, every name and every `as_of` timestamp, `get_item`
returns the content of the version of the name with the greatest
`effective_at ≤ as_of` if that version exists and is Active, and returns
absent (`none`, i.e. NotFound) if no version with `effective_at ≤ as_of`
exists or if the most recent such version is Inactive. -/
theorem C1_get_item_point_in_time (db : List Record) (hu : KeysUnique db)
    (p : String) (t : Timestamp) :
    get_item db p t = resolveContent (latestAt db p (datetime_todb t)) :=
  sql_get_item_resolve hu p (datetime_todb t)

/-- Witness for C1 at a concrete store: two versions of item `"a"` at
seconds 5 and 9, queried at second 7 — the resolution picks the version
at 5 and returns its content. -/
theorem C1_get_item_point_in_time_witness :
    KeysUnique [⟨"a", 5, "A", "x"⟩, ⟨"a", 9, "A", "y"⟩] ∧
      get_item [⟨"a", 5, "A", "x"⟩, ⟨"a", 9, "A", "y"⟩] "a" ⟨7, 250⟩ =
        resolveContent (latestAt [⟨"a", 5, "A", "x"⟩, ⟨"a", 9, "A", "y"⟩] "a" 7) ∧
      get_item [⟨"a", 5, "A", "x"⟩, ⟨"a", 9, "A", "y"⟩] "a" ⟨7, 250⟩ = some "x" := by
  refine ⟨by decide, C1_get_item_point_in_time _ (by decide) "a" ⟨7, 250⟩, by decide⟩

/-- C3: Write-conflict with atomicity.  If the store already contains a
version with key `(p, effective_at)`, a further `put_item` to that key
fails with the write-conflict error and the table is unchanged, so the
stored version for that key remains exactly the one already present. -/
theorem C3_write_conflict_atomicity (db : List Record) (c : Option String)
    (p : String) (t : Timestamp)
    (h : ∃ r ∈ db, r.name = p ∧ r.effdt = datetime_todb t) :
    put_item db c p t = Except.error () ∧ execPut db c p t = db := by
  obtain ⟨r, hr, hn, hd⟩ := h
  have hk : hasKey db p (datetime_todb t) = true := by
    rw [hasKey, List.any_eq_true]
    exact ⟨r, hr, by simp [hn, hd]⟩
  have hp : put_item db c p t = Except.error () := by
    rw [put_item, sql_put_item, if_pos hk]
  refine ⟨hp, ?_⟩
  unfold execPut
  rw [hp]

/-- Witness for C3: the store holds `("a", 5)`; a put of new content to
`"a"` at second 5 (even with a different sub-second part) conflicts and
leaves the table unchanged. -/
theorem C3_write_conflict_atomicity_witness :
    (∃ r ∈ [(⟨"a", 5, "A", "x"⟩ : Record)], r.name = "a" ∧ r.effdt = datetime_todb ⟨5, 123⟩) ∧
      put_item [⟨"a", 5, "A", "x"⟩] (some "z") "a" ⟨5, 123⟩ = Except.error () ∧
      execPut [⟨"a", 5, "A", "x"⟩] (some "z") "a" ⟨5, 123⟩ = [⟨"a", 5, "A", "x"⟩] :=
  ⟨by decide, C3_write_conflict_atomicity _ _ _ _ (by decide)⟩

/-! ### Helpers for the reachable-state invariant -/

theorem putRecord_name (c : Option String) (p : String) (d : Nat) :
    (putRecord c p d).name = p := by cases c <;> rfl

theorem putRecord_effdt (c : Option String) (p : String) (d : Nat) :
    (putRecord c p d).effdt = d := by cases c <;> rfl

theorem cleanup_sublist (db : List Record) (h : Nat) : (cleanup db h).Sublist db :=
  List.filter_sublist _

theorem keysUnique_cleanup {db : List Record} (hu : KeysUnique db) (h : Nat) :
    KeysUnique (cleanup db h) :=
  List.Pairwise.sublist (cleanup_sublist db h) hu

theorem execPut_eq (db : List Record) (c : Option String) (p : String) (t : Timestamp) :
    execPut db c p t =
      db ++ (if hasKey db p (datetime_todb t) = true then []
             else [putRecord c p (datetime_todb t)]) := by
  unfold execPut put_item sql_put_item
  by_cases hk : hasKey db p (datetime_todb t) = true
  · rw [if_pos hk, if_pos hk]
    simp
  · rw [if_neg hk, if_neg hk]

theorem keysUnique_execPut {db : List Record} (hu : KeysUnique db)
    (c : Option String) (p : String) (t : Timestamp) :
    KeysUnique (execPut db c p t) := by
  rw [execPut_eq]
  by_cases hk : hasKey db p (datetime_todb t) = true
  · rw [if_pos hk]
    simpa using hu
  · rw [if_neg hk]
    rw [KeysUnique, List.pairwise_append]
    refine ⟨hu, List.pairwise_singleton _ _, ?_⟩
    intro a ha b hb
    rw [List.mem_singleton] at hb
    subst hb
    simp only [hasKey, List.any_eq_true] at hk
    push_neg at hk
    have := hk a ha
    simp only [ne_eq, Bool.and_eq_true, beq_iff_eq, not_and] at this
    rw [putRecord_name, putRecord_effdt]
    by_cases hn : a.name = p
    · exact Or.inr (this hn)
    · exact Or.inl hn

/-- C8: Uniqueness and immutability invariant.  Every state reachable from
the fresh database by store operations satisfies the `(name, effdt)`
uniqueness invariant; moreover no operation modifies an existing row in
place: a put either appends exactly the one new row (when its key is
fresh) or leaves the table unchanged (write conflict), and cleanup only
removes rows (its result is a sublist of the table). -/
theorem C8_uniqueness_immutability :
    (∀ ops : List Op, KeysUnique (execOps ops)) ∧
      (∀ (db : List Record) (c : Option String) (p : String) (t : Timestamp),
        execPut db c p t =
          db ++ (if hasKey db p (datetime_todb t) = true then []
                 else [putRecord c p (datetime_todb t)])) ∧
      (∀ (db : List Record) (h : Nat), (cleanup db h).Sublist db) := by
  refine ⟨?_, execPut_eq, cleanup_sublist⟩
  intro ops
  induction ops with
  | nil => exact List.Pairwise.nil
  | cons op l ih =>
    cases op with
    | put c p t => exact keysUnique_execPut ih c p t
    | cleanupOp h => exact keysUnique_cleanup ih h

/-! ### Characterising `cleanup` -/

theorem oldStuff_iff {db : List Record} {h : Nat} {s : Record} :
    oldStuff db h s = true ↔
      s.effdt < h ∧ (s.status = "I" ∨ ∃ r ∈ db, r.name = s.name ∧ s.effdt < r.effdt) := by
  simp [oldStuff]

theorem mem_cleanup_iff {db : List Record} {h : Nat} {x : Record} :
    x ∈ cleanup db h ↔
      x ∈ db ∧ ∀ s ∈ db, ¬(oldStuff db h s = true ∧ s.name = x.name ∧ s.effdt = x.effdt) := by
  rw [cleanup, List.mem_filter]
  simp only [Bool.not_eq_true', List.any_eq_false, Bool.and_eq_true, beq_iff_eq]
  constructor
  · rintro ⟨hx, hall⟩
    exact ⟨hx, fun s hs hc => hall s hs ⟨⟨hc.1, hc.2.1⟩, hc.2.2⟩⟩
  · rintro ⟨hx, hall⟩
    exact ⟨hx, fun s hs hc => hall s hs ⟨hc.1.1, hc.1.2, hc.2⟩⟩

/-- `oldStuff` is monotone along list containment of the table used for
the supersession check. -/
theorem oldStuff_of_subset {l1 l2 : List Record} (hsub : ∀ r ∈ l1, r ∈ l2)
    {h : Nat} {s : Record} (ho : oldStuff l1 h s = true) : oldStuff l2 h s = true := by
  rw [oldStuff_iff] at ho ⊢
  refine ⟨ho.1, ho.2.imp id ?_⟩
  rintro ⟨r, hr, hprop⟩
  exact ⟨r, hsub r hr, hprop⟩

/-- Under the uniqueness invariant the key-based delete of `cleanup` reduces
to a row-based filter: a row survives iff it does not itself satisfy
`old_stuff`. -/
theorem mem_cleanup_unique {db : List Record} (hu : KeysUnique db) {h : Nat} {x : Record} :
    x ∈ cleanup db h ↔ x ∈ db ∧ oldStuff db h x = false := by
  rw [mem_cleanup_iff]
  constructor
  · rintro ⟨hx, hall⟩
    refine ⟨hx, ?_⟩
    rw [Bool.eq_false_iff]
    exact fun hne => hall x hx ⟨hne, rfl, rfl⟩
  · rintro ⟨hx, hfalse⟩
    refine ⟨hx, ?_⟩
    rintro s hs ⟨hold, hn, hd⟩
    have hsx : s = x := eq_of_key_eq hu hs hx hn hd
    subst hsx
    rw [hold] at hfalse
    cases hfalse

/-- A row surviving `cleanup` does not satisfy the `old_stuff` condition of
the post-cleanup table. -/
theorem not_oldStuff_of_mem_cleanup {db : List Record} {h : Nat} {s : Record}
    (hs : s ∈ cleanup db h) : oldStuff (cleanup db h) h s = false := by
  obtain ⟨hmem, hall⟩ := mem_cleanup_iff.mp hs
  by_contra hold
  rw [Bool.not_eq_false] at hold
  have : oldStuff db h s = true :=
    oldStuff_of_subset (fun r hr => (mem_cleanup_iff.mp hr).1) hold
  exact hall s hmem ⟨this, rfl, rfl⟩

/-- C7: Cleanup idempotence.  Running cleanup twice in a row with the same
horizon and no intervening writes leaves the table exactly as after the
first run: the second run deletes no further rows. -/
theorem C7_cleanup_idempotent (db : List Record) (h : Nat) :
    cleanup (cleanup db h) h = cleanup db h := by
  rw [cleanup, List.filter_eq_self]
  intro x hx
  rw [Bool.not_eq_true', List.any_eq_false]
  intro s hs hc
  rw [Bool.and_eq_true, Bool.and_eq_true] at hc
  have hno := not_oldStuff_of_mem_cleanup hs
  rw [hc.1.1] at hno
  cases hno

/-- C4: Cleanup deletion rule.  Under the uniqueness invariant, a row
survives `cleanup` exactly when it is not (older than the horizon and
Inactive-or-superseded); in particular the newest version of an item is
never deleted while Active, however old. -/
theorem C4_cleanup_deletion_rule (db : List Record) (hu : KeysUnique db) (h : Nat) :
    (∀ r, r ∈ cleanup db h ↔
        r ∈ db ∧ ¬(r.effdt < h ∧ (r.status = "I" ∨
          ∃ r2 ∈ db, r2.name = r.name ∧ r.effdt < r2.effdt))) ∧
      (∀ r ∈ db, r.status = "A" →
        (∀ r2 ∈ db, r2.name = r.name → r2.effdt ≤ r.effdt) → r ∈ cleanup db h) := by
  have main : ∀ r, r ∈ cleanup db h ↔
      r ∈ db ∧ ¬(r.effdt < h ∧ (r.status = "I" ∨
        ∃ r2 ∈ db, r2.name = r.name ∧ r.effdt < r2.effdt)) := by
    intro r
    rw [mem_cleanup_iff]
    constructor
    · rintro ⟨hr, hall⟩
      refine ⟨hr, fun hold => hall r hr ⟨oldStuff_iff.mpr hold, rfl, rfl⟩⟩
    · rintro ⟨hr, hnot⟩
      refine ⟨hr, ?_⟩
      rintro s hs ⟨hold, hn, hd⟩
      have hsr : s = r := by
        by_cases hsr : s = r
        · exact hsr
        · have hsym : Symmetric fun a b : Record => a.name ≠ b.name ∨ a.effdt ≠ b.effdt :=
            fun a b hh => hh.imp Ne.symm Ne.symm
          rcases hu.forall hsym hs hr hsr with hh | hh
          · exact absurd hn hh
          · exact absurd hd hh
      subst hsr
      exact hnot (oldStuff_iff.mp hold)
  refine ⟨main, ?_⟩
  intro r hr hA hmax
  rw [main r]
  refine ⟨hr, ?_⟩
  rintro ⟨_, hI | ⟨r2, hr2, hn2, hlt2⟩⟩
  · exact absurd (hA.symm.trans hI) (by decide)
  · exact absurd (hmax r2 hr2 hn2) (Nat.not_le_of_lt hlt2)

/-- Witness for C4 at a concrete store: item `"a"` has versions at seconds
1 (superseded) and 3 (newest, Active); with horizon 5 the old version is
purged and the newest survives although it is older than the horizon. -/
theorem C4_cleanup_deletion_rule_witness :
    KeysUnique [⟨"a", 1, "A", "x"⟩, ⟨"a", 3, "A", "y"⟩] ∧
      ((⟨"a", 3, "A", "y"⟩ : Record) ∈ cleanup [⟨"a", 1, "A", "x"⟩, ⟨"a", 3, "A", "y"⟩] 5 ∧
        ¬ (⟨"a", 1, "A", "x"⟩ : Record) ∈ cleanup [⟨"a", 1, "A", "x"⟩, ⟨"a", 3, "A", "y"⟩] 5) := by
  refine ⟨by decide, ?_, ?_⟩
  · exact (C4_cleanup_deletion_rule _ (by decide) 5).2 ⟨"a", 3, "A", "y"⟩ (by decide) rfl
      (by decide)
  · intro hmem
    have h1 := ((C4_cleanup_deletion_rule [⟨"a", 1, "A", "x"⟩, ⟨"a", 3, "A", "y"⟩]
      (by decide) 5).1 ⟨"a", 1, "A", "x"⟩).mp hmem
    exact h1.2 (by decide)

/-- C5 counterexample: the claim fails as stated.  Item `"a"` has an Active
version at second 100 and a future-dated Active version at second
1800000000; querying at `now` = second 1700000000 with retention horizon
1668464000 (one year earlier), `get_item` returns the old content before
cleanup, but cleanup deletes that version (it is older than the horizon
and superseded by the future version), so afterwards `get_item` returns
absent. -/
theorem C5_counterexample :
    KeysUnique [⟨"a", 100, "A", "v"⟩, ⟨"a", 1800000000, "A", "w"⟩] ∧
      (∃ r ∈ [(⟨"a", 100, "A", "v"⟩ : Record), ⟨"a", 1800000000, "A", "w"⟩],
        r.name = "a" ∧ r.status = "A") ∧
      1668464000 < datetime_todb ⟨1700000000, 0⟩ ∧
      get_item [⟨"a", 100, "A", "v"⟩, ⟨"a", 1800000000, "A", "w"⟩] "a"
        ⟨1700000000, 0⟩ = some "v" ∧
      get_item (cleanup [⟨"a", 100, "A", "v"⟩, ⟨"a", 1800000000, "A", "w"⟩]
        1668464000) "a" ⟨1700000000, 0⟩ = none := by
  decide

/-- C5 (amended): Cleanup preserves currency for stores with no
future-dated versions.  For every store state satisfying the uniqueness
invariant in which every version's `effective_at` is at or before `now`,
and every name with at least one Active version, `get_item(name, now)`
returns the same result after `cleanup` as before. -/
theorem C5_amended_cleanup_preserves_currency (db : List Record) (hu : KeysUnique db)
    (h : Nat) (p : String) (t : Timestamp)
    (hfut : ∀ r ∈ db, r.effdt ≤ datetime_todb t)
    (hact : ∃ r ∈ db, r.name = p ∧ r.status = "A") :
    get_item (cleanup db h) p t = get_item db p t := by
  have hu2 : KeysUnique (cleanup db h) := keysUnique_cleanup hu h
  show sql_get_item (cleanup db h) p (datetime_todb t) = sql_get_item db p (datetime_todb t)
  rw [sql_get_item_resolve hu2, sql_get_item_resolve hu]
  cases hl : latestAt db p (datetime_todb t) with
  | none =>
    obtain ⟨r, hr, hn, hA⟩ := hact
    exact absurd ⟨hn, hfut r hr⟩ (latestAt_eq_none_iff.mp hl r hr)
  | some v =>
    obtain ⟨hvmem, hvn, hvd, hvmax⟩ := latestAt_spec hl
    by_cases hdel : oldStuff db h v = true
    · have hvI : v.status = "I" ∧ v.effdt < h := by
        rw [oldStuff_iff] at hdel
        rcases hdel with ⟨hlt, hI | ⟨r2, hr2, hn2, hlt2⟩⟩
        · exact ⟨hI, hlt⟩
        · exact absurd (hvmax r2 hr2 (hn2.trans hvn) (hfut r2 hr2)) (Nat.not_le_of_lt hlt2)
      have hnone : latestAt (cleanup db h) p (datetime_todb t) = none := by
        rw [latestAt_eq_none_iff]
        intro r hr hcond
        obtain ⟨hrdb, hrold⟩ := (mem_cleanup_unique hu).mp hr
        by_cases hrv : r = v
        · subst hrv
          rw [hdel] at hrold
          cases hrold
        · have hle : r.effdt ≤ v.effdt := hvmax r hrdb hcond.1 hcond.2
          have hlt : r.effdt < v.effdt :=
            Nat.lt_of_le_of_ne hle
              (fun he => hrv (eq_of_key_eq hu hrdb hvmem (hcond.1.trans hvn.symm) he))
          have hold2 : oldStuff db h r = true :=
            oldStuff_iff.mpr
              ⟨Nat.lt_trans hlt hvI.2, Or.inr ⟨v, hvmem, hvn.trans hcond.1.symm, hlt⟩⟩
          rw [hold2] at hrold
          cases hrold
      rw [hnone]
      simp [resolveContent, hvI.1]
    · have hvmem2 : v ∈ cleanup db h :=
        (mem_cleanup_unique hu).mpr ⟨hvmem, Bool.eq_false_iff.mpr hdel⟩
      have hsome : latestAt (cleanup db h) p (datetime_todb t) = some v := by
        cases hl2 : latestAt (cleanup db h) p (datetime_todb t) with
        | none => exact absurd ⟨hvn, hvd⟩ (latestAt_eq_none_iff.mp hl2 v hvmem2)
        | some w =>
          obtain ⟨hwmem, hwn, hwd, hwmax⟩ := latestAt_spec hl2
          have hwdb : w ∈ db := ((mem_cleanup_unique hu).mp hwmem).1
          have h1 : w.effdt ≤ v.effdt := hvmax w hwdb hwn hwd
          have h2 : v.effdt ≤ w.effdt := hwmax v hvmem2 hvn hvd
          have heq : w = v :=
            eq_of_key_eq hu hwdb hvmem (hwn.trans hvn.symm) (Nat.le_antisymm h1 h2)
          rw [heq]
      rw [hsome]

/-- Witness for the amended C5: versions of `"a"` at seconds 100 and 200,
horizon 150, queried at second 1000 — cleanup deletes the superseded old
version, and the current content is unchanged. -/
theorem C5_amended_witness :
    KeysUnique [⟨"a", 100, "A", "v"⟩, ⟨"a", 200, "A", "w"⟩] ∧
      (∀ r ∈ [(⟨"a", 100, "A", "v"⟩ : Record), ⟨"a", 200, "A", "w"⟩],
        r.effdt ≤ datetime_todb ⟨1000, 0⟩) ∧
      (∃ r ∈ [(⟨"a", 100, "A", "v"⟩ : Record), ⟨"a", 200, "A", "w"⟩],
        r.name = "a" ∧ r.status = "A") ∧
      get_item (cleanup [⟨"a", 100, "A", "v"⟩, ⟨"a", 200, "A", "w"⟩] 150) "a" ⟨1000, 0⟩ =
        get_item [⟨"a", 100, "A", "v"⟩, ⟨"a", 200, "A", "w"⟩] "a" ⟨1000, 0⟩ :=
  ⟨by decide, by decide, by decide,
    C5_amended_cleanup_preserves_currency _ (by decide) 150 "a" ⟨1000, 0⟩
      (by decide) (by decide)⟩

/-! ### Locality helpers: rows of other names do not interfere -/

theorem hasKey_eq_false_of_fresh {db : List Record} {p : String}
    (hfresh : ∀ r ∈ db, r.name ≠ p) (d : Nat) : hasKey db p d = false := by
  rw [hasKey, List.any_eq_false]
  intro r hr
  simp only [Bool.and_eq_true, beq_iff_eq, not_and]
  exact fun hn _ => hfresh r hr hn

theorem getPred_append_fresh {db l : List Record} {p : String} {d : Nat} {s : Record}
    (hfresh : ∀ r ∈ db, r.name ≠ p) (hs : s.name = p) :
    getPred (db ++ l) p d s = getPred l p d s := by
  have hany : (db.any fun r =>
      r.name == s.name && decide (s.effdt < r.effdt) && decide (r.effdt ≤ d)) = false := by
    rw [List.any_eq_false]
    intro r hr
    simp only [Bool.and_eq_true, beq_iff_eq, not_and]
    exact fun hh _ => absurd (hh.1.trans hs) (hfresh r hr)
  rw [getPred, getPred, List.any_append, hany, Bool.false_or]

theorem sql_get_item_append_fresh (db l : List Record) (p : String) (d : Nat)
    (hfresh : ∀ r ∈ db, r.name ≠ p) (hl : ∀ r ∈ l, r.name = p) :
    sql_get_item (db ++ l) p d = sql_get_item l p d := by
  unfold sql_get_item
  rw [List.filter_append]
  have h1 : db.filter (getPred (db ++ l) p d) = [] := by
    rw [List.filter_eq_nil_iff]
    intro r hr hpred
    exact hfresh r hr (getPred_iff.mp hpred).1
  have h2 : l.filter (getPred (db ++ l) p d) = l.filter (getPred l p d) :=
    List.filter_congr (fun s hs2 => getPred_append_fresh hfresh (hl s hs2))
  rw [h1, h2, List.nil_append]

/-- C2: Soft-delete and reactivation round-trip.  Starting from any store
holding no version of `p`, writing content `V` at `t1`, a soft delete at
`t2` and content `V2` at `t3` (strictly increasing stored timestamps) all
succeed, and afterwards `get_item` returns `V` on `[t1, t2)`, absent on
`[t2, t3)`, and `V2` from `t3` on. -/
theorem C2_soft_delete_reactivation (db : List Record) (p : String) (V V2 : String)
    (t1 t2 t3 : Timestamp)
    (hfresh : ∀ r ∈ db, r.name ≠ p)
    (h12 : datetime_todb t1 < datetime_todb t2)
    (h23 : datetime_todb t2 < datetime_todb t3) :
    put_item db (some V) p t1 =
      Except.ok (db ++ [⟨p, datetime_todb t1, "A", V⟩]) ∧
    put_item (db ++ [⟨p, datetime_todb t1, "A", V⟩]) none p t2 =
      Except.ok (db ++ [⟨p, datetime_todb t1, "A", V⟩] ++ [⟨p, datetime_todb t2, "I", ""⟩]) ∧
    put_item (db ++ [⟨p, datetime_todb t1, "A", V⟩] ++ [⟨p, datetime_todb t2, "I", ""⟩])
        (some V2) p t3 =
      Except.ok (db ++ [⟨p, datetime_todb t1, "A", V⟩] ++ [⟨p, datetime_todb t2, "I", ""⟩]
        ++ [⟨p, datetime_todb t3, "A", V2⟩]) ∧
    (∀ t : Timestamp, datetime_todb t1 ≤ datetime_todb t → datetime_todb t < datetime_todb t2 →
      get_item (db ++ [⟨p, datetime_todb t1, "A", V⟩] ++ [⟨p, datetime_todb t2, "I", ""⟩]
        ++ [⟨p, datetime_todb t3, "A", V2⟩]) p t = some V) ∧
    (∀ t : Timestamp, datetime_todb t2 ≤ datetime_todb t → datetime_todb t < datetime_todb t3 →
      get_item (db ++ [⟨p, datetime_todb t1, "A", V⟩] ++ [⟨p, datetime_todb t2, "I", ""⟩]
        ++ [⟨p, datetime_todb t3, "A", V2⟩]) p t = none) ∧
    (∀ t : Timestamp, datetime_todb t3 ≤ datetime_todb t →
      get_item (db ++ [⟨p, datetime_todb t1, "A", V⟩] ++ [⟨p, datetime_todb t2, "I", ""⟩]
        ++ [⟨p, datetime_todb t3, "A", V2⟩]) p t = some V2) := by
  set d1 := datetime_todb t1 with hd1
  set d2 := datetime_todb t2 with hd2
  set d3 := datetime_todb t3 with hd3
  have hfresh1 : ∀ r ∈ db ++ [(⟨p, d1, "A", V⟩ : Record)], r.name ≠ p ∨ r.effdt ≠ d2 := by
    intro r hr
    rcases List.mem_append.mp hr with hr | hr
    · exact Or.inl (hfresh r hr)
    · rw [List.mem_singleton] at hr
      subst hr
      exact Or.inr (show d1 ≠ d2 by omega)
  have hfresh2 : ∀ r ∈ db ++ [(⟨p, d1, "A", V⟩ : Record)] ++ [(⟨p, d2, "I", ""⟩ : Record)],
      r.name ≠ p ∨ r.effdt ≠ d3 := by
    intro r hr
    rcases List.mem_append.mp hr with hr | hr
    · rcases List.mem_append.mp hr with hr | hr
      · exact Or.inl (hfresh r hr)
      · rw [List.mem_singleton] at hr
        subst hr
        exact Or.inr (show d1 ≠ d3 by omega)
    · rw [List.mem_singleton] at hr
      subst hr
      exact Or.inr (show d2 ≠ d3 by omega)
  have hk1 : hasKey db p d1 = false := hasKey_eq_false_of_fresh hfresh d1
  have hk2 : hasKey (db ++ [(⟨p, d1, "A", V⟩ : Record)]) p d2 = false := by
    rw [hasKey, List.any_eq_false]
    intro r hr
    simp only [Bool.and_eq_true, beq_iff_eq, not_and]
    intro hn hd
    rcases hfresh1 r hr with hh | hh
    · exact hh hn
    · exact hh hd
  have hk3 : hasKey (db ++ [(⟨p, d1, "A", V⟩ : Record)] ++ [(⟨p, d2, "I", ""⟩ : Record)])
      p d3 = false := by
    rw [hasKey, List.any_eq_false]
    intro r hr
    simp only [Bool.and_eq_true, beq_iff_eq, not_and]
    intro hn hd
    rcases hfresh2 r hr with hh | hh
    · exact hh hn
    · exact hh hd
  have hnames : ∀ r ∈ [(⟨p, d1, "A", V⟩ : Record)] ++
      ([(⟨p, d2, "I", ""⟩ : Record)] ++ [(⟨p, d3, "A", V2⟩ : Record)]), r.name = p := by
    intro r hr
    simp only [List.singleton_append, List.mem_cons, List.not_mem_nil, or_false] at hr
    rcases hr with rfl | rfl | rfl <;> rfl
  have hu3 : KeysUnique [(⟨p, d1, "A", V⟩ : Record), ⟨p, d2, "I", ""⟩, ⟨p, d3, "A", V2⟩] := by
    rw [KeysUnique]
    refine List.Pairwise.cons ?_ (List.Pairwise.cons ?_ (List.pairwise_singleton _ _))
    · intro b hb
      simp only [List.mem_cons, List.not_mem_nil, or_false] at hb
      rcases hb with rfl | rfl
      · exact Or.inr (show d1 ≠ d2 by omega)
      · exact Or.inr (show d1 ≠ d3 by omega)
    · intro b hb
      rw [List.mem_singleton] at hb
      subst hb
      exact Or.inr (show d2 ≠ d3 by omega)
  refine ⟨?_, ?_, ?_, ?_, ?_, ?_⟩
  · rw [put_item, sql_put_item, ← hd1, hk1]
    rfl
  · rw [put_item, sql_put_item, ← hd2, hk2]
    rfl
  · rw [put_item, sql_put_item, ← hd3, hk3]
    rfl
  · intro t ha hb
    rw [get_item, List.append_assoc, List.append_assoc,
      sql_get_item_append_fresh db _ p (datetime_todb t) hfresh hnames,
      List.singleton_append, List.singleton_append]
    refine (sql_get_item_eq_some_iff hu3).mpr ⟨⟨p, d1, "A", V⟩, by simp, ?_, rfl⟩
    rw [getPred_iff]
    refine ⟨rfl, ha, ?_, rfl⟩
    intro x hx hn hlt hle
    simp only [List.mem_cons, List.not_mem_nil, or_false] at hx
    rcases hx with rfl | rfl | rfl
    · have h2 : d1 < d1 := hlt
      omega
    · have h2 : d2 ≤ datetime_todb t := hle
      omega
    · have h2 : d3 ≤ datetime_todb t := hle
      omega
  · intro t ha hb
    rw [get_item, List.append_assoc, List.append_assoc,
      sql_get_item_append_fresh db _ p (datetime_todb t) hfresh hnames,
      List.singleton_append, List.singleton_append]
    rw [sql_get_item_eq_none_iff]
    intro r hr hpred
    rw [getPred_iff] at hpred
    obtain ⟨hn, hd, hmax, hA⟩ := hpred
    simp only [List.mem_cons, List.not_mem_nil, or_false] at hr
    rcases hr with rfl | rfl | rfl
    · exact hmax ⟨p, d2, "I", ""⟩ (by simp) rfl (show d1 < d2 by omega) ha
    · exact absurd hA (show ¬ ("I" = "A") by decide)
    · have h2 : d3 ≤ datetime_todb t := hd
      omega
  · intro t ha
    rw [get_item, List.append_assoc, List.append_assoc,
      sql_get_item_append_fresh db _ p (datetime_todb t) hfresh hnames,
      List.singleton_append, List.singleton_append]
    refine (sql_get_item_eq_some_iff hu3).mpr ⟨⟨p, d3, "A", V2⟩, by simp, ?_, rfl⟩
    rw [getPred_iff]
    refine ⟨rfl, ha, ?_, rfl⟩
    intro x hx hn hlt hle
    simp only [List.mem_cons, List.not_mem_nil, or_false] at hx
    rcases hx with rfl | rfl | rfl
    · have h2 : d3 < d1 := hlt
      omega
    · have h2 : d3 < d2 := hlt
      omega
    · have h2 : d3 < d3 := hlt
      omega

/-- Witness for C2 from the empty store: item `"a"` gets content `"1"` at
second 10, a soft delete at second 20, content `"2"` at second 30; reads at
seconds 15, 25 and 35 return the content, absent, and the new content. -/
theorem C2_soft_delete_reactivation_witness :
    (∀ r ∈ ([] : List Record), r.name ≠ "a") ∧
      datetime_todb ⟨10, 0⟩ < datetime_todb ⟨20, 5⟩ ∧
      datetime_todb ⟨20, 5⟩ < datetime_todb ⟨30, 0⟩ ∧
      get_item [⟨"a", 10, "A", "1"⟩, ⟨"a", 20, "I", ""⟩, ⟨"a", 30, "A", "2"⟩]
        "a" ⟨15, 0⟩ = some "1" ∧
      get_item [⟨"a", 10, "A", "1"⟩, ⟨"a", 20, "I", ""⟩, ⟨"a", 30, "A", "2"⟩]
        "a" ⟨25, 0⟩ = none ∧
      get_item [⟨"a", 10, "A", "1"⟩, ⟨"a", 20, "I", ""⟩, ⟨"a", 30, "A", "2"⟩]
        "a" ⟨35, 0⟩ = some "2" := by
  have h := C2_soft_delete_reactivation [] "a" "1" "2" ⟨10, 0⟩ ⟨20, 5⟩ ⟨30, 0⟩
    (by decide) (by decide) (by decide)
  exact ⟨by decide, by decide, by decide,
    h.2.2.2.1 ⟨15, 0⟩ (by decide) (by decide),
    h.2.2.2.2.1 ⟨25, 0⟩ (by decide) (by decide),
    h.2.2.2.2.2 ⟨35, 0⟩ (by decide)⟩

/-- C10: Second-granularity truncation.  `datetime_todb` keeps only the
whole seconds of a timestamp (discarding the fractional part), so two
timestamps equal up to sub-second digits resolve identically in
`get_item`, and after a successful put at one of them, a put to the same
name at the other hits the same `(name, effdt)` key and fails with a
write conflict. -/
theorem C10_second_truncation (db : List Record) (p : String) (t t2 : Timestamp)
    (hsec : t.sec = t2.sec) :
    datetime_todb t = t.sec ∧
    get_item db p t = get_item db p t2 ∧
    (∀ (c c2 : Option String) (db2 : List Record),
      put_item db c p t = Except.ok db2 →
        put_item db2 c2 p t2 = Except.error ()) := by
  refine ⟨rfl, ?_, ?_⟩
  · rw [get_item, get_item, datetime_todb, datetime_todb, hsec]
  · intro c c2 db2 hok
    rw [put_item, sql_put_item] at hok
    by_cases hk : hasKey db p (datetime_todb t) = true
    · rw [if_pos hk] at hok
      cases hok
    · rw [if_neg hk] at hok
      injection hok with hok2
      subst hok2
      rw [put_item, sql_put_item]
      have hk2 : hasKey (db ++ [putRecord c p (datetime_todb t)]) p (datetime_todb t2) = true := by
        rw [hasKey, List.any_eq_true]
        refine ⟨putRecord c p (datetime_todb t),
          List.mem_append_right _ (List.mem_singleton_self _), ?_⟩
        simp [putRecord_name, putRecord_effdt, datetime_todb, hsec]
      rw [if_pos hk2]

/-- Witness for C10: timestamps 5.9 s and 5.0001 s agree on whole seconds;
reads at the two agree, and a second put to the same name within the same
second conflicts. -/
theorem C10_second_truncation_witness :
    (⟨5, 900000⟩ : Timestamp).sec = (⟨5, 100⟩ : Timestamp).sec ∧
    get_item [⟨"b", 5, "A", "y"⟩] "b" ⟨5, 900000⟩ =
      get_item [⟨"b", 5, "A", "y"⟩] "b" ⟨5, 100⟩ ∧
    put_item ([] : List Record) (some "x") "b" ⟨5, 900000⟩ =
      Except.ok [⟨"b", 5, "A", "x"⟩] ∧
    put_item [⟨"b", 5, "A", "x"⟩] (some "z") "b" ⟨5, 100⟩ = Except.error () := by
  have h := C10_second_truncation [] "b" ⟨5, 900000⟩ ⟨5, 100⟩ rfl
  have h2 := C10_second_truncation [⟨"b", 5, "A", "y"⟩] "b" ⟨5, 900000⟩ ⟨5, 100⟩ rfl
  exact ⟨rfl, h2.2.1, rfl, h.2.2 (some "x") (some "z") [⟨"b", 5, "A", "x"⟩] rfl⟩

/-! ### Sortedness of the listing operations -/

theorem histLe_iff {a b : String × Nat × String} :
    histLe a b = true ↔ a.1 < b.1 ∨ (a.1 = b.1 ∧ a.2.1 ≤ b.2.1) := by
  simp [histLe]

theorem histLe_trans : ∀ a b c : String × Nat × String,
    histLe a b → histLe b c → histLe a c := by
  intro a b c hab hbc
  rw [histLe_iff] at hab hbc ⊢
  rcases hab with h1 | ⟨h1, h2⟩ <;> rcases hbc with h3 | ⟨h3, h4⟩
  · exact Or.inl (lt_trans h1 h3)
  · exact Or.inl (h3 ▸ h1)
  · exact Or.inl (h1 ▸ h3)
  · exact Or.inr ⟨h1.trans h3, le_trans h2 h4⟩

theorem histLe_total : ∀ a b : String × Nat × String, histLe a b || histLe b a := by
  intro a b
  rw [Bool.or_eq_true, histLe_iff, histLe_iff]
  rcases lt_trichotomy a.1 b.1 with h | h | h
  · exact Or.inl (Or.inl h)
  · rcases Nat.le_total a.2.1 b.2.1 with h2 | h2
    · exact Or.inl (Or.inr ⟨h, h2⟩)
    · exact Or.inr (Or.inr ⟨h.symm, h2⟩)
  · exact Or.inr (Or.inl h)

theorem strLe_trans : ∀ a b c : String,
    (fun x y : String => decide (x ≤ y)) a b →
      (fun x y : String => decide (x ≤ y)) b c →
      (fun x y : String => decide (x ≤ y)) a c := by
  intro a b c h1 h2
  simp only [decide_eq_true_eq] at h1 h2 ⊢
  exact le_trans h1 h2

theorem strLe_total : ∀ a b : String,
    (fun x y : String => decide (x ≤ y)) a b ||
      (fun x y : String => decide (x ≤ y)) b a := by
  intro a b
  simp only [Bool.or_eq_true, decide_eq_true_eq]
  exact le_total a b

/-- C9: History listing.  `get_list_hist` returns, as `(name, effdt,
status)` entries, exactly the rows of the table passing the optional name
filter — including Inactive rows, with no point-in-time filtering — as a
permutation of the projected table, ordered by name and then by `effdt`
ascending. -/
theorem C9_get_list_hist_complete (db : List Record) (filt : String → Bool) :
    (get_list_hist db filt).Perm
        ((db.filter fun s => filt s.name).map fun s => (s.name, s.effdt, s.status)) ∧
      (get_list_hist db filt).Pairwise
        (fun a b => a.1 < b.1 ∨ (a.1 = b.1 ∧ a.2.1 ≤ b.2.1)) := by
  constructor
  · exact List.mergeSort_perm _ _
  · exact List.Pairwise.imp (fun hab => histLe_iff.mp hab)
      (List.sorted_mergeSort histLe_trans histLe_total _)

/-! ### `get_list` exactness -/

theorem getPred_self (db : List Record) (d : Nat) (s : Record) :
    getPred db s.name d s = listPred db d s := by
  simp [getPred, listPred]

theorem nodup_of_keysUnique {db : List Record} (hu : KeysUnique db) : db.Nodup := by
  refine List.Pairwise.imp ?_ hu
  intro a b h he
  subst he
  rcases h with h | h <;> exact h rfl

/-- C6: `get_list` exactness and order.  Under the uniqueness invariant,
`get_list` contains a name exactly when it passes the filter and the
current version of that name as of the query second (per the `get_item`
resolution rule) is Active; the result is sorted lexicographically
ascending and has no duplicates. -/
theorem C6_get_list_exact (db : List Record) (hu : KeysUnique db)
    (filt : String → Bool) (d : Nat) :
    (∀ a : String, a ∈ get_list db filt d ↔
        (filt a = true ∧ ∃ c, sql_get_item db a d = some c)) ∧
      (get_list db filt d).Pairwise (fun a b : String => a ≤ b) ∧
      (get_list db filt d).Nodup := by
  have hperm : (get_list db filt d).Perm
      ((db.filter fun s => listPred db d s && filt s.name).map Record.name) :=
    List.mergeSort_perm _ _
  refine ⟨?_, ?_, ?_⟩
  · intro a
    rw [hperm.mem_iff, List.mem_map]
    constructor
    · rintro ⟨s, hs, rfl⟩
      rw [List.mem_filter] at hs
      obtain ⟨hsdb, hq⟩ := hs
      rw [Bool.and_eq_true] at hq
      refine ⟨hq.2, s.content, ?_⟩
      rw [sql_get_item_eq_some_iff hu]
      refine ⟨s, hsdb, ?_, rfl⟩
      rw [getPred_self]
      exact hq.1
    · rintro ⟨hfa, c, hc⟩
      rw [sql_get_item_eq_some_iff hu] at hc
      obtain ⟨r, hrdb, hpred, hcont⟩ := hc
      have hname : r.name = a := (getPred_iff.mp hpred).1
      refine ⟨r, ?_, hname⟩
      rw [List.mem_filter]
      refine ⟨hrdb, ?_⟩
      rw [Bool.and_eq_true]
      constructor
      · rw [← getPred_self, hname]
        exact hpred
      · rw [hname]
        exact hfa
  · exact List.Pairwise.imp (fun hab => decide_eq_true_eq.mp hab)
      (List.sorted_mergeSort strLe_trans strLe_total _)
  · rw [hperm.nodup_iff]
    apply List.Nodup.map_on
    · intro x hx y hy hxy
      rw [List.mem_filter] at hx hy
      have hqx : getPred db x.name d x = true := by
        rw [getPred_self]
        have h2 := hx.2
        rw [Bool.and_eq_true] at h2
        exact h2.1
      have hqy : getPred db x.name d y = true := by
        rw [hxy, getPred_self]
        have h2 := hy.2
        rw [Bool.and_eq_true] at h2
        exact h2.1
      exact getPred_unique hu hx.1 hy.1 hqx hqy
    · exact (nodup_of_keysUnique hu).filter _

/-- Witness for C6 at a concrete store: names `"b"`, `"a"` Active and
`"c"` soft-deleted, queried at second 10 with a trivial filter. -/
theorem C6_get_list_exact_witness :
    KeysUnique [⟨"b", 1, "A", "x"⟩, ⟨"a", 2, "A", "y"⟩, ⟨"c", 3, "I", ""⟩] ∧
      ("a" ∈ get_list [⟨"b", 1, "A", "x"⟩, ⟨"a", 2, "A", "y"⟩, ⟨"c", 3, "I", ""⟩]
          (fun _ => true) 10 ↔
        ((fun _ : String => true) "a" = true ∧
          ∃ c, sql_get_item [⟨"b", 1, "A", "x"⟩, ⟨"a", 2, "A", "y"⟩, ⟨"c", 3, "I", ""⟩]
            "a" 10 = some c)) ∧
      (get_list [⟨"b", 1, "A", "x"⟩, ⟨"a", 2, "A", "y"⟩, ⟨"c", 3, "I", ""⟩]
        (fun _ => true) 10).Pairwise (fun a b : String => a ≤ b) ∧
      (get_list [⟨"b", 1, "A", "x"⟩, ⟨"a", 2, "A", "y"⟩, ⟨"c", 3, "I", ""⟩]
        (fun _ => true) 10).Nodup := by
  have h := C6_get_list_exact [⟨"b", 1, "A", "x"⟩, ⟨"a", 2, "A", "y"⟩, ⟨"c", 3, "I", ""⟩]
    (by decide) (fun _ => true) 10
  exact ⟨by decide, h.1 "a", h.2.1, h.2.2⟩

end JsonStorage
